import Mathlib

/-!
# Pcl.hpp: instruction records and the diagnostic trace

A shallow embedding of `src/Pcl.hpp` (classes `PclInstr` and `Trace`).

Conventions of the embedding
* a `char` / `uint8_t` is its unsigned byte value, a `Nat` below 256;
* `uint16_t` fields are `Nat`s, and `pos++` is written with an explicit
  `% 65536`;
* `int32_t` and `off64_t` are `Int`s;
* text written to a stream is a `String`; the byte `b` is the character
  `Char.ofNat b`, and `endl` is the newline character;
* `uint8_t * data` is `Option (List Nat)`: `none` is the null pointer, and
  `some buf` points at the first byte of the buffer `buf`.  A read outside
  the buffer has no defined result, so `next` is an `Option`;
* the backlog `list<PclInstr*>` is a list of records.
-/

namespace Pcl

/-! ## Text formatting (`boost::format` on top of the standard streams) -/

/-- One uppercase hexadecimal digit. -/
def hexDigitUpper (d : Nat) : Char :=
  if d < 10 then Char.ofNat (48 + d) else Char.ofNat (55 + d)

/-- Digits of `n` in base 16, most significant first, by repeated division
(`fuel` bounds the number of digits). -/
def hexDigitsAux : Nat → Nat → List Char → List Char
  | 0, _, acc => acc
  | fuel + 1, n, acc =>
    if n < 16 then hexDigitUpper n :: acc
    else hexDigitsAux fuel (n / 16) (hexDigitUpper (n % 16) :: acc)

/-- What `os << n` writes for an unsigned integer under the flags `hex` and
`uppercase`, without width. -/
def hexUpper (n : Nat) : List Char :=
  hexDigitsAux (n + 1) n []

/-- Padding of a field to width `w` with the fill character placed before
the text (what the streams do for `right` and, when the text has no sign or
base mark, for `internal`). -/
def padBefore (w : Nat) (fill : Char) (cs : List Char) : List Char :=
  List.replicate (w - cs.length) fill ++ cs

/-- The directive `%08X` applied to an `off64_t`.  `boost::format` sets the
flags `hex`, `uppercase`, width 8, fill `0`, adjustment `internal`, and then
streams the argument; in base 16 the stream writes a signed integer as the
unsigned value of the same 64 bits.  A text longer than the width is written
whole. -/
def fmt08X (v : Int) : String :=
  String.mk (padBefore 8 '0' (hexUpper (v % 18446744073709551616).toNat))

/-- The directive `%02X` applied to a `char`.  `boost::format` sets the same
flags as for `fmt08X` with width 2 and then streams the argument with
`os << c`, and the stream inserter of a `char` writes the character itself
(the number base only applies to integer types), padded to the width. -/
def fmt02X_char (c : Nat) : String :=
  String.mk (padBefore 2 '0' [Char.ofNat c])

/-- The directive `%c` applied to a `char`: the character. -/
def fmtC_char (c : Nat) : String :=
  String.mk [Char.ofNat c]

/-- The directive `%d` applied to an `int32_t`: signed decimal. -/
def fmtD_int (v : Int) : String :=
  toString v

/-- The function `isgraph` of the C library in the default "C" locale: the
visible ASCII characters, 33 to 126. The other byte values, those of a
negative `char` included, are not graphic. -/
def isgraph (c : Nat) : Bool :=
  decide (33 ≤ c) && decide (c ≤ 126)

/-! ## What `Pcl.hpp` takes from the other headers -/

/-- The class `Point` of `2D.hpp`, built as `Point(x, y)`. -/
structure Point where
  x : Int
  y : Int
  deriving DecidableEq, Repr

/-- The parts of `PclIntConfig.hpp` and `2D.hpp` that `Pcl.hpp` uses and
does not define: the three level constants and the stream inserter of a
`Point`. They are parameters of the embedding. -/
structure Externals where
  LVL_WARN : Nat
  LVL_INFO : Nat
  LVL_DEBUG : Nat
  pointText : Point → String

/-! ## PclInstr -/

/-- The class `PclInstr`. The field `prefix` of the source is `prefix_`. -/
structure PclInstr where
  type : Nat
  prefix_ : Nat
  suffix : Nat
  keysep : Nat
  value : Int
  data : Option (List Nat)
  pos : Nat
  limit : Nat
  file_off : Int
  hasValue : Bool
  hasData : Bool
  deriving DecidableEq, Repr

namespace PclInstr

/-- The constructor `PclInstr(off64_t file_off)`. -/
def new (file_off : Int) : PclInstr :=
  { type := 127, prefix_ := 127, suffix := 127, keysep := 0, value := 0,
    data := none, pos := 0, limit := 0, file_off := file_off,
    hasValue := false, hasData := false }

/-- The method `hasNext`. -/
def hasNext (r : PclInstr) : Bool :=
  decide (r.pos < r.limit)

/-- The method `next`: `*(data + pos++)`. The cursor is a `uint16_t`, so the
increment is modulo 65536. There is no result when `data` is null or the
index is outside the buffer. -/
def next (r : PclInstr) : Option (Nat × PclInstr) :=
  match r.data with
  | none => none
  | some buf =>
    match buf[r.pos]? with
    | none => none
    | some b => some (b, { r with pos := (r.pos + 1) % 65536 })

/-- The first bytes of the object, in declaration order: the four `char`
members lie at offsets 0 to 3 and the `int32_t` at offset 4 (little endian).
The members after `value` are not part of this list. -/
def leadingBytes (r : PclInstr) : List Nat :=
  let v := (r.value % 4294967296).toNat
  [r.type, r.prefix_, r.suffix, r.keysep,
   v % 256, v / 256 % 256, v / 65536 % 256, v / 16777216 % 256]

/-- The function `memcmp(a, b, n) == 0`: the first `n` bytes of both are
present and equal. -/
def memEq (a b : List Nat) (n : Nat) : Bool :=
  decide (n ≤ a.length) && decide (n ≤ b.length) && decide (a.take n = b.take n)

/-- The bytes of `signature.c_str()`: the characters and the final NUL. -/
def c_str (signature : List Nat) : List Nat :=
  signature ++ [0]

/-- What `os << (char*)this` writes: the bytes of the object up to the first
NUL. When none of the eight leading bytes is NUL the read goes on into the
pointer member, whose bytes the embedding does not fix: `none`. -/
def asCString (r : PclInstr) : Option String :=
  let bs := r.leadingBytes.takeWhile (fun b => b != 0)
  if bs.length < r.leadingBytes.length then some (String.mk (bs.map Char.ofNat))
  else none

/-- Text of a byte string. -/
def textOf (bs : List Nat) : String :=
  String.mk (bs.map Char.ofNat)

/-- The method `matches`: the result, and what it writes to `cerr` (`none`
inside when the text of the object is not fixed, see `asCString`).
`debugLevel` is `PclIntConfig::singleton()->debugLevel`. -/
def «matches» (E : Externals) (debugLevel : Nat) (r : PclInstr) (signature : List Nat)
    (report : Bool) : Bool × Option String :=
  let m := memEq r.leadingBytes (c_str signature) 3
  if !m && report && decide (debugLevel ≥ E.LVL_WARN) then
    (m, (r.asCString).map
      (fun found => "expected: " ++ textOf signature ++ " found: " ++ found ++ "\n"))
  else
    (m, some "")

/-- The static method `pretty`. -/
def pretty (c : Nat) : String :=
  if !isgraph c then "(0x" ++ fmt02X_char c ++ ")"
  else fmtC_char c

/-- The text of `fmtInstr` in `operator<<`, the format
`(%08X) %s%s%s = %d` fed with the file offset, the three signature
characters and the value or the text `NULL`. -/
def render (instr : PclInstr) : String :=
  "(" ++ fmt08X instr.file_off ++ ") "
    ++ pretty instr.type ++ pretty instr.prefix_ ++ pretty instr.suffix
    ++ " = " ++ (if instr.hasValue then fmtD_int instr.value else "NULL")

end PclInstr

/-! ## Trace -/

/-- The streams `cout` and `cerr`: the text written so far. -/
structure Streams where
  cout : String
  cerr : String
  deriving DecidableEq, Repr

/-- The class `Trace` (the static `instance` is the one value of this type
that the program holds). -/
structure Trace where
  backlogSize : Nat
  backlog : List PclInstr
  penPos : Point
  deriving DecidableEq, Repr

namespace Trace

/-- The constructor `Trace()`. -/
def new : Trace :=
  { backlogSize := 10, backlog := [], penPos := { x := 0, y := 0 } }

/-- The method `logInstr`. `backlog.erase(backlog.begin())` removes the first
element; on an empty list (only possible when `backlogSize` is 0, which the
constructor never sets) the source has no defined behaviour and the
embedding leaves the list empty. -/
def logInstr (E : Externals) (debugLevel : Nat) (t : Trace) (io : Streams)
    (instr : PclInstr) : Trace × Streams :=
  let io1 :=
    if debugLevel ≥ E.LVL_DEBUG then
      { io with cerr := io.cerr ++ E.pointText t.penPos ++ "\t" ++ instr.render ++ "\n" }
    else io
  let erased :=
    if t.backlog.length ≥ t.backlogSize then t.backlog.tail else t.backlog
  ({ t with backlog := erased ++ [instr] }, io1)

/-- The method `logPlotterStat`. -/
def logPlotterStat (t : Trace) (penPos : Point) : Trace :=
  { t with penPos := penPos }

/-- The method `info`. -/
def info (E : Externals) (debugLevel : Nat) (t : Trace) (io : Streams)
    (msg : String) : Trace × Streams :=
  if debugLevel ≥ E.LVL_INFO then (t, { io with cout := io.cout ++ msg ++ "\n" })
  else (t, io)

/-- The method `warn`. -/
def warn (E : Externals) (debugLevel : Nat) (t : Trace) (io : Streams)
    (msg : String) : Trace × Streams :=
  if debugLevel ≥ E.LVL_WARN then
    (t, { io with cerr := io.cerr ++ "WARNING: " ++ msg ++ "\n" })
  else (t, io)

/-- The method `debug`. -/
def debug (E : Externals) (debugLevel : Nat) (t : Trace) (io : Streams)
    (msg : String) : Trace × Streams :=
  if debugLevel ≥ E.LVL_DEBUG then
    (t, { io with cerr := io.cerr ++ "DEBUG: " ++ msg ++ "\n" })
  else (t, io)

/-- The method `printBacklog`; `os` is the text already in the stream it
is given, and the result holds the text of that stream afterwards. The loop
over the iterators is the left fold over the list. -/
def printBacklog (E : Externals) (debugLevel : Nat) (t : Trace) (os : String)
    (caller msg : String) : Trace × String :=
  if debugLevel < E.LVL_DEBUG then (t, os)
  else
    let os1 := os ++ "=== " ++ caller ++ " trace: " ++ msg ++ ": " ++ "\n"
    let os2 :=
      if t.backlog.isEmpty then os1 ++ "(backlog N/A)" ++ "\n"
      else t.backlog.foldl (fun o instr => o ++ "\t" ++ instr.render ++ "\n") os1
    (t, os2 ++ "\n")

end Trace

/-! ## Sequences of calls -/

/-- The stream handed to `printBacklog`. -/
inductive Sink where
  | out
  | err
  deriving DecidableEq, Repr

/-- One call of a public method of `Trace`. -/
inductive TraceCall where
  | logInstr (instr : PclInstr)
  | logPlotterStat (penPos : Point)
  | info (msg : String)
  | warn (msg : String)
  | debug (msg : String)
  | printBacklog (os : Sink) (caller msg : String)

/-- The trace together with the two streams. -/
structure Sys where
  trace : Trace
  io : Streams

/-- The program right after `Trace::singleton()` built the trace. -/
def Sys.init : Sys :=
  { trace := Trace.new, io := { cout := "", cerr := "" } }

/-- One call, made while the configured level is `c.1`. -/
def Sys.step (E : Externals) (s : Sys) (c : Nat × TraceCall) : Sys :=
  match c.2 with
  | .logInstr instr =>
    let r := s.trace.logInstr E c.1 s.io instr
    { trace := r.1, io := r.2 }
  | .logPlotterStat p => { s with trace := s.trace.logPlotterStat p }
  | .info msg =>
    let r := s.trace.info E c.1 s.io msg
    { trace := r.1, io := r.2 }
  | .warn msg =>
    let r := s.trace.warn E c.1 s.io msg
    { trace := r.1, io := r.2 }
  | .debug msg =>
    let r := s.trace.debug E c.1 s.io msg
    { trace := r.1, io := r.2 }
  | .printBacklog .out caller msg =>
    let r := s.trace.printBacklog E c.1 s.io.cout caller msg
    { trace := r.1, io := { s.io with cout := r.2 } }
  | .printBacklog .err caller msg =>
    let r := s.trace.printBacklog E c.1 s.io.cerr caller msg
    { trace := r.1, io := { s.io with cerr := r.2 } }

/-- A sequence of calls, each with the level in force when it is made. -/
def Sys.run (E : Externals) (s : Sys) (cs : List (Nat × TraceCall)) : Sys :=
  cs.foldl (Sys.step E) s

/-- A sequence of `logInstr` calls, each with the level in force when it is
made. -/
def Trace.logInstrs (E : Externals) (t : Trace) (io : Streams)
    (cs : List (Nat × PclInstr)) : Trace × Streams :=
  cs.foldl (fun s c => s.1.logInstr E c.1 s.2 c.2) (t, io)

/-! ## Reading a hexadecimal field back (used to state what `render` writes) -/

/-- The value of one uppercase hexadecimal digit. -/
def hexDigitValue (c : Char) : Option Nat :=
  if 48 ≤ c.toNat ∧ c.toNat ≤ 57 then some (c.toNat - 48)
  else if 65 ≤ c.toNat ∧ c.toNat ≤ 70 then some (c.toNat - 55)
  else none

/-- The number written by a string of uppercase hexadecimal digits, read
from the left starting from `acc`; `none` when a character is not such a
digit. -/
def hexValueFrom (acc : Nat) : List Char → Option Nat
  | [] => some acc
  | c :: cs =>
    match hexDigitValue c with
    | none => none
    | some d => hexValueFrom (16 * acc + d) cs

/-- The number written by a string of uppercase hexadecimal digits. -/
def hexValue (cs : List Char) : Option Nat :=
  hexValueFrom 0 cs

/-- The text of a list of lines, each closed by a newline. -/
def unlines : List String → String
  | [] => ""
  | l :: ls => l ++ "\n" ++ unlines ls

/-- The last `n` elements of a list, in order. -/
def lastN {α : Type} (n : Nat) (l : List α) : List α :=
  l.drop (l.length - n)

/-- The instruction `*rA` (`PCL_RASTER_START`) without value at file offset
`0x10`. -/
def rasterStart : PclInstr :=
  { PclInstr.new 16 with type := 42, prefix_ := 114, suffix := 65 }

/-- The instruction `*bW` (`PCL_RLE_DATA`) with value 5 at file offset
`0x20`. -/
def rleData5 : PclInstr :=
  { PclInstr.new 32 with
    type := 42, prefix_ := 98, suffix := 87, hasValue := true, value := 5 }

/-- The instruction `*rC` (`PCL_RASTER_END`) as a signature string. -/
def rasterEndSignature : List Nat :=
  [42, 114, 67]

/-- A caller's check-before-read loop `while (instr.hasNext()) instr.next();`.
The result lists every read in order, as the cursor at the call and the byte
returned, and gives the record after the loop. `fuel` bounds the number of
iterations: `none` when it runs out, and when a read has no result. -/
def readWhileHasNext : Nat → PclInstr → Option (List (Nat × Nat) × PclInstr)
  | 0, _ => none
  | fuel + 1, r =>
    if r.hasNext then
      match r.next with
      | none => none
      | some (b, r') =>
        match readWhileHasNext fuel r' with
        | none => none
        | some (reads, r'') => some ((r.pos, b) :: reads, r'')
    else some ([], r)

/-- The points handed to `logPlotterStat` in a sequence of calls, in order. -/
def plotterStats (cs : List (Nat × TraceCall)) : List Point :=
  cs.filterMap (fun c =>
    match c.2 with
    | .logPlotterStat p => some p
    | _ => none)

/-- The signed decimal text of an integer: a minus sign for a negative
number, then the decimal digits of the absolute value. -/
def signedDecimal (v : Int) : String :=
  (if v < 0 then "-" else "") ++ String.mk (Nat.toDigits 10 v.natAbs)

/-! ## The payload cursor -/

namespace PclInstr

/-- A read inside the buffer below 65535 returns the byte under the cursor
and moves the cursor by one. -/
theorem next_of_lt (r : PclInstr) (buf : List Nat) (hdata : r.data = some buf)
    (hin : r.pos < buf.length) (hpos : r.pos + 1 < 65536) :
    r.next = some (buf[r.pos], { r with pos := r.pos + 1 }) := by
  simp [next, hdata, List.getElem?_eq_getElem hin, Nat.mod_eq_of_lt hpos]

/-- C1: when `hasNext()` is true and the payload has at least `limit` bytes,
`next()` returns the payload byte at the cursor and leaves the cursor one
further, with no wrap-around of the 16-bit field. -/
theorem next_returns_byte_and_advances (r : PclInstr) (buf : List Nat)
    (hdata : r.data = some buf) (hlen : r.limit ≤ buf.length)
    (hlimit : r.limit < 65536) (hnext : r.hasNext = true) :
    ∃ b, buf[r.pos]? = some b ∧
      r.next = some (b, { r with pos := r.pos + 1 }) := by
  have hpos : r.pos < r.limit := by simpa [hasNext] using hnext
  have hin : r.pos < buf.length := Nat.lt_of_lt_of_le hpos hlen
  exact ⟨buf[r.pos], List.getElem?_eq_getElem hin,
    next_of_lt r buf hdata hin (by omega)⟩

/-- C1 at a record with three payload bytes and the cursor on the second. -/
theorem next_returns_byte_and_advances_witness :
    ∃ b, [10, 20, 30][1]? = some b ∧
      ({ PclInstr.new 0 with data := some [10, 20, 30], pos := 1, limit := 3 } : PclInstr).next
        = some (b, { PclInstr.new 0 with data := some [10, 20, 30], pos := 2, limit := 3 }) :=
  next_returns_byte_and_advances
    { PclInstr.new 0 with data := some [10, 20, 30], pos := 1, limit := 3 }
    [10, 20, 30] rfl (by decide) (by decide) (by decide)

/-- C7, as stated, fails: the record left by `next()` called at
`pos = limit = 1` over a buffer of two bytes has `pos = 2` and `limit = 1`;
on it `hasNext()` is false although `pos` differs from `limit`. -/
theorem hasNext_false_beyond_limit :
    ({ PclInstr.new 0 with data := some [1, 2], pos := 1, limit := 1 } : PclInstr).next
      = some (2, { PclInstr.new 0 with data := some [1, 2], pos := 2, limit := 1 }) ∧
    ¬ (({ PclInstr.new 0 with data := some [1, 2], pos := 2, limit := 1 } : PclInstr).hasNext
        = false ↔
      ({ PclInstr.new 0 with data := some [1, 2], pos := 2, limit := 1 } : PclInstr).pos
        = ({ PclInstr.new 0 with data := some [1, 2], pos := 2, limit := 1 } : PclInstr).limit) := by
  constructor <;> decide

/-- C7, amended: on every record `hasNext()` is true exactly when
`pos < limit` and false exactly when `pos ≥ limit`; on a record whose cursor
has not passed the limit it is false exactly when `pos == limit`. -/
theorem hasNext_iff (r : PclInstr) :
    (r.hasNext = true ↔ r.pos < r.limit) ∧
    (r.hasNext = false ↔ r.limit ≤ r.pos) ∧
    (r.pos ≤ r.limit → (r.hasNext = false ↔ r.pos = r.limit)) := by
  refine ⟨by simp [hasNext], by simp [hasNext], fun hle => ?_⟩
  simp only [hasNext, decide_eq_false_iff_not, Nat.not_lt]
  omega

/-- C7 (amended) at a record read to its end. -/
theorem hasNext_iff_witness :
    (({ PclInstr.new 0 with data := some [10, 20], pos := 2, limit := 2 } : PclInstr).hasNext
      = false ↔ (2 : Nat) = 2) :=
  (hasNext_iff { PclInstr.new 0 with data := some [10, 20], pos := 2, limit := 2 }).2.2
    (by decide)

/-- C8, as stated, fails: a call of `next()` at `pos == limit` on a buffer
that is longer than `limit` returns a byte and leaves `pos` above `limit`. -/
theorem next_breaks_pos_le_limit :
    ({ PclInstr.new 0 with data := some [1, 2], pos := 1, limit := 1 } : PclInstr).pos
      ≤ ({ PclInstr.new 0 with data := some [1, 2], pos := 1, limit := 1 } : PclInstr).limit ∧
    ∃ b r', ({ PclInstr.new 0 with data := some [1, 2], pos := 1, limit := 1 } : PclInstr).next
        = some (b, r') ∧ ¬ r'.pos ≤ r'.limit :=
  ⟨by decide, 2, { PclInstr.new 0 with data := some [1, 2], pos := 2, limit := 1 },
    by decide, by decide⟩

/-- C8, amended: `pos ≤ limit` holds after construction; whenever `next()`
returns, the record differs from the old one in `pos` only; and a call made
while `hasNext()` is true, on a payload of at least `limit` bytes, returns
and keeps `pos ≤ limit`. -/
theorem pos_le_limit_invariant (o : Int) (r : PclInstr) (buf : List Nat)
    (hdata : r.data = some buf) (hlen : r.limit ≤ buf.length)
    (hlimit : r.limit < 65536) (hnext : r.hasNext = true) :
    (PclInstr.new o).pos ≤ (PclInstr.new o).limit ∧
    (∀ (q : PclInstr) (b : Nat) (q' : PclInstr), q.next = some (b, q') →
      q' = { q with pos := q'.pos }) ∧
    ∃ b r', r.next = some (b, r') ∧ r'.pos ≤ r'.limit ∧ r'.limit = r.limit := by
  refine ⟨by simp [PclInstr.new], ?_, ?_⟩
  · intro q b q' h
    unfold next at h
    cases hd : q.data with
    | none => simp [hd] at h
    | some l =>
      cases hb : l[q.pos]? with
      | none => simp [hd, hb] at h
      | some x =>
        simp only [hd, hb, Option.some.injEq, Prod.mk.injEq] at h
        rw [← h.2]
  · have hpos : r.pos < r.limit := by simpa [hasNext] using hnext
    have hin : r.pos < buf.length := Nat.lt_of_lt_of_le hpos hlen
    exact ⟨buf[r.pos], _, next_of_lt r buf hdata hin (by omega),
      by show r.pos + 1 ≤ r.limit; omega, rfl⟩

/-- C8 (amended) at a record with three payload bytes and the cursor on the
second. -/
theorem pos_le_limit_invariant_witness :
    (PclInstr.new 7).pos ≤ (PclInstr.new 7).limit ∧
    (∀ (q : PclInstr) (b : Nat) (q' : PclInstr), q.next = some (b, q') →
      q' = { q with pos := q'.pos }) ∧
    ∃ b r',
      ({ PclInstr.new 0 with data := some [10, 20, 30], pos := 1, limit := 3 } : PclInstr).next
        = some (b, r') ∧ r'.pos ≤ r'.limit ∧ r'.limit = 3 :=
  pos_le_limit_invariant 7
    { PclInstr.new 0 with data := some [10, 20, 30], pos := 1, limit := 3 }
    [10, 20, 30] rfl (by decide) (by decide) (by decide)

end PclInstr

/-! ## Signature matching -/

namespace PclInstr

/-- The comparison of `matches` on a signature of at least three bytes. -/
theorem memEq_leadingBytes (r : PclInstr) (a b c : Nat) (rest : List Nat) :
    memEq r.leadingBytes (c_str (a :: b :: c :: rest)) 3 = true ↔
      r.type = a ∧ r.prefix_ = b ∧ r.suffix = c := by
  simp [memEq, leadingBytes, c_str]

/-- C4: on a signature of at least three bytes `matches` returns true
exactly when `type`, `prefix` and `suffix` equal its first three bytes; a
record with signature bytes `a`, `b`, `c` matches every string that starts
with them; and the result is the same for every `report` and debug level. -/
theorem matches_iff_first_three (E : Externals) (debugLevel : Nat) (r : PclInstr)
    (signature : List Nat) (report : Bool) (hlen : 3 ≤ signature.length) :
    ((r.matches E debugLevel signature report).1 = true ↔
      signature[0]? = some r.type ∧ signature[1]? = some r.prefix_ ∧
        signature[2]? = some r.suffix) ∧
    (∀ (E' : Externals) (lvl' : Nat) (rest : List Nat) (report' : Bool),
      (r.matches E' lvl' (r.type :: r.prefix_ :: r.suffix :: rest) report').1 = true) ∧
    (∀ (E' : Externals) (lvl' : Nat) (report' : Bool),
      (r.matches E' lvl' signature report').1
        = (r.matches E debugLevel signature report).1) := by
  have hfst : ∀ (E' : Externals) (lvl' : Nat) (sig : List Nat) (report' : Bool),
      (r.matches E' lvl' sig report').1 = memEq r.leadingBytes (c_str sig) 3 := by
    intro E' lvl' sig report'
    unfold «matches»
    dsimp only
    split <;> rfl
  refine ⟨?_, ?_, ?_⟩
  · match signature, hlen with
    | a :: b :: c :: rest, _ =>
      rw [hfst, memEq_leadingBytes]
      simp [eq_comm]
  · intro E' lvl' rest report'
    rw [hfst, memEq_leadingBytes]
    exact ⟨rfl, rfl, rfl⟩
  · intro E' lvl' report'
    rw [hfst, hfst]

/-- C4 at the raster start instruction `*rA` and the signature `*rA1`. -/
theorem matches_iff_first_three_witness :
    ((({ PclInstr.new 0 with type := 42, prefix_ := 114, suffix := 65 } : PclInstr).matches
        ⟨1, 2, 3, fun _ => ""⟩ 3 [42, 114, 65, 49] true).1 = true ↔
      [42, 114, 65, 49][0]? = some 42 ∧ [42, 114, 65, 49][1]? = some 114 ∧
        [42, 114, 65, 49][2]? = some 65) :=
  (matches_iff_first_three ⟨1, 2, 3, fun _ => ""⟩ 3
    { PclInstr.new 0 with type := 42, prefix_ := 114, suffix := 65 }
    [42, 114, 65, 49] true (by decide)).1

end PclInstr

/-! ## Rendering -/

theorem hexDigitValue_hexDigitUpper (d : Nat) (h : d < 16) :
    hexDigitValue (hexDigitUpper d) = some d := by
  interval_cases d <;> rfl

theorem hexDigitUpper_ne_zero (d : Nat) (h0 : 1 ≤ d) (h : d < 16) :
    hexDigitUpper d ≠ '0' := by
  interval_cases d <;> decide

theorem hexDigitsAux_append (fuel n : Nat) (acc : List Char) :
    hexDigitsAux fuel n acc = hexDigitsAux fuel n [] ++ acc := by
  induction fuel generalizing n acc with
  | zero => simp [hexDigitsAux]
  | succ f ih =>
    unfold hexDigitsAux
    split
    · simp
    · rw [ih (n / 16) (hexDigitUpper (n % 16) :: acc), ih (n / 16) [hexDigitUpper (n % 16)]]
      simp

theorem hexValueFrom_append (a : Nat) (xs ys : List Char) :
    hexValueFrom a (xs ++ ys) = (hexValueFrom a xs).bind (fun v => hexValueFrom v ys) := by
  induction xs generalizing a with
  | nil => simp [hexValueFrom]
  | cons c cs ih =>
    simp only [List.cons_append, hexValueFrom]
    cases hexDigitValue c with
    | none => simp
    | some d => simpa using ih (16 * a + d)

theorem hexValue_hexDigitsAux (fuel n : Nat) (h : n < fuel) :
    hexValueFrom 0 (hexDigitsAux fuel n []) = some n := by
  induction fuel generalizing n with
  | zero => omega
  | succ f ih =>
    unfold hexDigitsAux
    split
    · rename_i hn
      simp [hexValueFrom, hexDigitValue_hexDigitUpper n hn]
    · rename_i hn
      have hdiv : n / 16 < f := by omega
      rw [hexDigitsAux_append, hexValueFrom_append, ih (n / 16) hdiv]
      simp only [Option.some_bind, hexValueFrom,
        hexDigitValue_hexDigitUpper (n % 16) (Nat.mod_lt _ (by decide))]
      congr 1
      omega

theorem hexValueFrom_zeros (k : Nat) (cs : List Char) :
    hexValueFrom 0 (List.replicate k '0' ++ cs) = hexValueFrom 0 cs := by
  induction k with
  | zero => simp
  | succ k ih =>
    have hz : hexDigitValue '0' = some 0 := rfl
    simp only [List.replicate_succ, List.cons_append, hexValueFrom, hz]
    simpa using ih

theorem hexDigitsAux_length_le (fuel n k : Nat) (h : n < fuel) (hk : 1 ≤ k)
    (hn : n < 16 ^ k) : (hexDigitsAux fuel n []).length ≤ k := by
  induction fuel generalizing n k with
  | zero => omega
  | succ f ih =>
    unfold hexDigitsAux
    split
    · simpa using hk
    · rename_i h16
      have h16 : 16 ≤ n := by omega
      obtain ⟨j, rfl⟩ : ∃ j, k = j + 1 := ⟨k - 1, by omega⟩
      have hj : 1 ≤ j := by
        rcases Nat.eq_zero_or_pos j with h0 | h0
        · subst h0; simp at hn; omega
        · exact h0
      have hdiv : n / 16 < 16 ^ j := by
        rw [Nat.div_lt_iff_lt_mul (by decide)]
        simpa [pow_succ] using hn
      rw [hexDigitsAux_append]
      have := ih (n / 16) j (by omega) hj hdiv
      simp
      omega

theorem hexDigitsAux_head (fuel n : Nat) (h : n < fuel) (h1 : 1 ≤ n) :
    ∃ c cs, hexDigitsAux fuel n [] = c :: cs ∧ c ≠ '0' := by
  induction fuel generalizing n with
  | zero => omega
  | succ f ih =>
    unfold hexDigitsAux
    split
    · rename_i hn
      exact ⟨_, _, rfl, hexDigitUpper_ne_zero n h1 hn⟩
    · obtain ⟨c, cs, hc, hne⟩ := ih (n / 16) (by omega) (by omega)
      rw [hexDigitsAux_append, hc]
      exact ⟨c, cs ++ [hexDigitUpper (n % 16)], rfl, hne⟩

/-- The field written for the directive `%08X`: it reads back as the number,
has at least eight digits, no zero in front beyond the eighth digit, and
exactly eight digits below `2 ^ 32`. -/
theorem padded_hex_field (n : Nat) :
    hexValue (padBefore 8 '0' (hexUpper n)) = some n ∧
    8 ≤ (padBefore 8 '0' (hexUpper n)).length ∧
    (8 < (padBefore 8 '0' (hexUpper n)).length →
      (padBefore 8 '0' (hexUpper n)).head? ≠ some '0') ∧
    (n < 4294967296 → (padBefore 8 '0' (hexUpper n)).length = 8) := by
  refine ⟨?_, ?_, ?_, ?_⟩
  · unfold hexValue padBefore hexUpper
    rw [hexValueFrom_zeros]
    exact hexValue_hexDigitsAux (n + 1) n (by omega)
  · simp only [padBefore, List.length_append, List.length_replicate]
    omega
  · intro hlong
    simp only [padBefore, List.length_append, List.length_replicate] at hlong
    have hlen : 8 < (hexUpper n).length := by omega
    have hn : 1 ≤ n := by
      rcases Nat.eq_zero_or_pos n with h0 | h0
      · subst h0
        simp [hexUpper, hexDigitsAux] at hlen
      · exact h0
    obtain ⟨c, cs, hc, hne⟩ := hexDigitsAux_head (n + 1) n (by omega) hn
    have hpad : 8 - (hexUpper n).length = 0 := by omega
    simp only [padBefore, hpad, List.replicate_zero, List.nil_append]
    unfold hexUpper
    rw [hc]
    simpa using hne
  · intro hsmall
    have := hexDigitsAux_length_le (n + 1) n 8 (by omega) (by decide) (by simpa using hsmall)
    simp only [padBefore, hexUpper, List.length_append, List.length_replicate]
    omega

namespace PclInstr

/-- C5, as stated, fails: at the file offset `0x100000000` the rendering
holds nine hexadecimal digits, so it is not an opening bracket, eight
characters, and the rest of the line. -/
theorem render_offset_needs_nine_digits :
    ({ PclInstr.new 4294967296 with type := 42, prefix_ := 114, suffix := 65 } : PclInstr).render
      = "(100000000) *rA = NULL" ∧
    ¬ ∃ h : String, h.length = 8 ∧
      ({ PclInstr.new 4294967296 with type := 42, prefix_ := 114, suffix := 65 } : PclInstr).render
        = "(" ++ h ++ ") " ++ pretty 42 ++ pretty 114 ++ pretty 65 ++ " = " ++ "NULL" := by
  refine ⟨by decide, ?_⟩
  rintro ⟨h, hlen, heq⟩
  have hl := congrArg String.length heq
  have h1 : ({ PclInstr.new 4294967296 with type := 42, prefix_ := 114, suffix := 65 } :
      PclInstr).render.length = 22 := by decide
  have h2 : ("(" : String).length = 1 := by decide
  have h3 : (") " : String).length = 2 := by decide
  have h4 : (pretty 42).length = 1 ∧ (pretty 114).length = 1 ∧ (pretty 65).length = 1 := by
    decide
  have h5 : (" = " : String).length = 3 ∧ ("NULL" : String).length = 4 := by decide
  rw [h1] at hl
  simp only [String.length_append, hlen, h2, h3, h4.1, h4.2.1, h4.2.2, h5.1, h5.2] at hl
  omega

/-- C5, amended: the rendering is an opening bracket, the hexadecimal field,
a closing bracket and a blank, the three `pretty` texts, ` = ` and the value
slot, where the field is the file offset (as the unsigned value of its 64
bits) in uppercase hexadecimal digits, filled with zeros in front up to
eight digits: eight digits exactly for an offset from 0 up to `0xFFFFFFFF`,
and the digits of the number, more than eight, above. -/
theorem render_eq (r : PclInstr) :
    (∃ h : List Char,
      r.render = "(" ++ String.mk h ++ ") " ++ pretty r.type ++ pretty r.prefix_
        ++ pretty r.suffix ++ " = " ++ (if r.hasValue then toString r.value else "NULL") ∧
      hexValue h = some (r.file_off % 18446744073709551616).toNat ∧
      8 ≤ h.length ∧
      (8 < h.length → h.head? ≠ some '0') ∧
      (0 ≤ r.file_off → r.file_off < 4294967296 → h.length = 8)) ∧
    ({ PclInstr.new 16 with type := 42, prefix_ := 114, suffix := 65 } : PclInstr).render
      = "(00000010) *rA = NULL" := by
  obtain ⟨hv, hge, hhead, hsmall⟩ :=
    padded_hex_field (r.file_off % 18446744073709551616).toNat
  refine ⟨⟨padBefore 8 '0' (hexUpper (r.file_off % 18446744073709551616).toNat),
    rfl, hv, hge, hhead, ?_⟩, by decide⟩
  intro h0 h32
  apply hsmall
  have : r.file_off % 18446744073709551616 = r.file_off :=
    Int.emod_eq_of_lt h0 (by omega)
  rw [this]
  omega

/-- C6 on the code: for a character that is not graphic `pretty` writes
`(0x`, the fill character `0`, the character itself and `)`, not two
hexadecimal digits; the unset sentinel 127 gives the six characters
`(0x0`, DEL, `)`, and the unset record at offset `0x10` renders with three
of them. -/
theorem pretty_writes_the_character :
    (∀ c : Nat, pretty c =
      if 33 ≤ c ∧ c ≤ 126 then String.mk [Char.ofNat c]
      else String.mk ['(', '0', 'x', '0', Char.ofNat c, ')']) ∧
    pretty 127 = "(0x0\x7f)" ∧
    pretty 127 ≠ "(0x7F)" ∧
    (PclInstr.new 16).render = "(00000010) (0x0\x7f)(0x0\x7f)(0x0\x7f) = NULL" := by
  refine ⟨?_, by decide, by decide, by decide⟩
  intro c
  unfold pretty isgraph
  by_cases h : 33 ≤ c ∧ c ≤ 126
  · simp [h, fmtC_char]
  · have h' : ¬ (33 ≤ c ∧ c ≤ 126) := h
    simp only [h, if_false]
    rw [if_pos]
    · rfl
    · rcases not_and_or.mp h' with h1 | h1 <;> simp [h1]

end PclInstr

/-! ## The backlog -/

theorem lastN_of_length_le {α : Type} (n : Nat) (l : List α) (h : l.length ≤ n) :
    lastN n l = l := by
  unfold lastN
  rw [Nat.sub_eq_zero_of_le h, List.drop_zero]

theorem length_lastN {α : Type} (n : Nat) (l : List α) :
    (lastN n l).length = min l.length n := by
  unfold lastN
  rw [List.length_drop]
  omega

theorem lastN_append_lastN {α : Type} (n : Nat) (l ys : List α) :
    lastN n (lastN n l ++ ys) = lastN n (l ++ ys) := by
  unfold lastN
  rw [← List.drop_append_of_le_length (Nat.sub_le _ _), List.drop_drop]
  congr 1
  simp only [List.length_drop, List.length_append]
  omega

namespace Trace

/-- One `logInstr` call on a backlog within a capacity of at least one
keeps the capacity and leaves the last `backlogSize` records of the old
backlog followed by the new record. -/
theorem logInstr_backlog_lastN (E : Externals) (lvl : Nat) (t : Trace) (io : Streams)
    (instr : PclInstr) (hcap : 1 ≤ t.backlogSize) (hle : t.backlog.length ≤ t.backlogSize) :
    (t.logInstr E lvl io instr).1.backlogSize = t.backlogSize ∧
    (t.logInstr E lvl io instr).1.backlog = lastN t.backlogSize (t.backlog ++ [instr]) := by
  refine ⟨rfl, ?_⟩
  show (if t.backlog.length ≥ t.backlogSize then t.backlog.tail else t.backlog) ++ [instr] = _
  split
  · rename_i hfull
    have hlen : t.backlog.length = t.backlogSize := by omega
    unfold lastN
    have h1 : (t.backlog ++ [instr]).length - t.backlogSize = 1 := by
      simp only [List.length_append, List.length_singleton]
      omega
    rw [h1, List.drop_append_of_le_length (by omega), List.drop_one]
  · rename_i hroom
    rw [lastN_of_length_le]
    simp only [List.length_append, List.length_singleton]
    omega

/-- A sequence of `logInstr` calls on a backlog within a capacity of at
least one keeps the capacity and leaves the last `backlogSize` records of
the old backlog followed by the logged records. -/
theorem logInstrs_backlog_lastN (E : Externals) (cs : List (Nat × PclInstr)) (t : Trace)
    (io : Streams) (hcap : 1 ≤ t.backlogSize) (hle : t.backlog.length ≤ t.backlogSize) :
    (t.logInstrs E io cs).1.backlogSize = t.backlogSize ∧
    (t.logInstrs E io cs).1.backlog
      = lastN t.backlogSize (t.backlog ++ cs.map Prod.snd) := by
  induction cs generalizing t io with
  | nil =>
    refine ⟨rfl, ?_⟩
    simp only [logInstrs, List.foldl_nil, List.map_nil, List.append_nil]
    exact (lastN_of_length_le _ _ hle).symm
  | cons c rest ih =>
    obtain ⟨hsize, hback⟩ := logInstr_backlog_lastN E c.1 t io c.2 hcap hle
    have hle' : (t.logInstr E c.1 io c.2).1.backlog.length
        ≤ (t.logInstr E c.1 io c.2).1.backlogSize := by
      rw [hsize, hback, length_lastN]
      omega
    have step := ih (t.logInstr E c.1 io c.2).1 (t.logInstr E c.1 io c.2).2
      (by rw [hsize]; exact hcap) hle'
    have hfold : t.logInstrs E io (c :: rest)
        = (t.logInstr E c.1 io c.2).1.logInstrs E (t.logInstr E c.1 io c.2).2 rest := rfl
    rw [hfold, step.1, step.2, hsize, hback, lastN_append_lastN]
    simp

/-- C2: with a capacity `c ≥ 1`, `c + k` calls of `logInstr` (`k ≥ 1`) from an
empty backlog leave exactly `c` records, the last `c` of the logged
sequence in the order of the calls. -/
theorem logInstrs_overflow (E : Externals) (c k : Nat) (hc : 1 ≤ c) (hk : 1 ≤ k)
    (penPos : Point) (io : Streams) (cs : List (Nat × PclInstr))
    (hlen : cs.length = c + k) :
    ((⟨c, [], penPos⟩ : Trace).logInstrs E io cs).1.backlog.length = c ∧
    ((⟨c, [], penPos⟩ : Trace).logInstrs E io cs).1.backlog
      = (cs.map Prod.snd).drop k := by
  have h := (logInstrs_backlog_lastN E cs ⟨c, [], penPos⟩ io hc (by simp)).2
  have hdrop : lastN c (cs.map Prod.snd) = (cs.map Prod.snd).drop k := by
    unfold lastN
    congr 1
    simp only [List.length_map, hlen]
    omega
  simp only [List.nil_append] at h
  rw [h, hdrop]
  refine ⟨?_, rfl⟩
  simp only [List.length_drop, List.length_map, hlen]
  omega

/-- C2 at capacity 3 with the records of file offsets 1, 2, 3, 4: the
backlog holds the offsets 2, 3, 4. -/
theorem logInstrs_overflow_witness :
    (((⟨3, [], ⟨0, 0⟩⟩ : Trace).logInstrs ⟨1, 2, 3, fun _ => ""⟩ ⟨"", ""⟩
        [(3, PclInstr.new 1), (3, PclInstr.new 2), (3, PclInstr.new 3),
          (3, PclInstr.new 4)]).1.backlog.length = 3 ∧
      ((⟨3, [], ⟨0, 0⟩⟩ : Trace).logInstrs ⟨1, 2, 3, fun _ => ""⟩ ⟨"", ""⟩
        [(3, PclInstr.new 1), (3, PclInstr.new 2), (3, PclInstr.new 3),
          (3, PclInstr.new 4)]).1.backlog
        = ([(3, PclInstr.new 1), (3, PclInstr.new 2), (3, PclInstr.new 3),
          (3, PclInstr.new 4)].map Prod.snd).drop 1) ∧
    ((⟨3, [], ⟨0, 0⟩⟩ : Trace).logInstrs ⟨1, 2, 3, fun _ => ""⟩ ⟨"", ""⟩
        [(3, PclInstr.new 1), (3, PclInstr.new 2), (3, PclInstr.new 3),
          (3, PclInstr.new 4)]).1.backlog.map PclInstr.file_off = [2, 3, 4] :=
  ⟨logInstrs_overflow ⟨1, 2, 3, fun _ => ""⟩ 3 1 (by decide) (by decide) ⟨0, 0⟩ ⟨"", ""⟩
    [(3, PclInstr.new 1), (3, PclInstr.new 2), (3, PclInstr.new 3), (3, PclInstr.new 4)]
    rfl, by decide⟩

end Trace

namespace Trace

/-- C9: one `logInstr` call (capacity at least one) appends the record to a
backlog of fewer than `backlogSize` entries and evicts nothing; on a backlog
of `backlogSize` entries it drops the first entry and appends the record;
and the new backlog is the same at every debug level. -/
theorem logInstr_backlog (E : Externals) (debugLevel : Nat) (t : Trace) (io : Streams)
    (instr : PclInstr) (hcap : 1 ≤ t.backlogSize) :
    (t.backlog.length < t.backlogSize →
      (t.logInstr E debugLevel io instr).1.backlog = t.backlog ++ [instr]) ∧
    (t.backlog.length = t.backlogSize →
      ∃ oldest rest, t.backlog = oldest :: rest ∧
        (t.logInstr E debugLevel io instr).1.backlog = rest ++ [instr]) ∧
    (∀ (E' : Externals) (lvl' : Nat) (io' : Streams),
      (t.logInstr E' lvl' io' instr).1.backlog
        = (t.logInstr E debugLevel io instr).1.backlog) := by
  have hdef : ∀ (E' : Externals) (lvl' : Nat) (io' : Streams),
      (t.logInstr E' lvl' io' instr).1.backlog
        = (if t.backlog.length ≥ t.backlogSize then t.backlog.tail else t.backlog)
            ++ [instr] := fun _ _ _ => rfl
  refine ⟨?_, ?_, ?_⟩
  · intro hroom
    rw [hdef, if_neg (by omega)]
  · intro hfull
    cases hb : t.backlog with
    | nil =>
      rw [hb] at hfull
      simp only [List.length_nil] at hfull
      omega
    | cons oldest rest =>
      refine ⟨oldest, rest, rfl, ?_⟩
      rw [hdef, if_pos (by omega), hb, List.tail_cons]
  · intro E' lvl' io'
    rw [hdef, hdef]

/-- C9 on a full backlog of capacity 2: the oldest record leaves. -/
theorem logInstr_backlog_witness :
    ∃ oldest rest, [PclInstr.new 1, PclInstr.new 2] = oldest :: rest ∧
      ((⟨2, [PclInstr.new 1, PclInstr.new 2], ⟨0, 0⟩⟩ : Trace).logInstr
        ⟨1, 2, 3, fun _ => ""⟩ 0 ⟨"", ""⟩ (PclInstr.new 3)).1.backlog
        = rest ++ [PclInstr.new 3] :=
  (logInstr_backlog ⟨1, 2, 3, fun _ => ""⟩ 0
    ⟨2, [PclInstr.new 1, PclInstr.new 2], ⟨0, 0⟩⟩ ⟨"", ""⟩ (PclInstr.new 3)
    (by decide)).2.1 rfl

end Trace

/-- One call keeps the capacity 10 and a backlog of at most 10 entries. -/
theorem Sys.step_keeps_bound (E : Externals) (s : Sys) (c : Nat × TraceCall)
    (hsize : s.trace.backlogSize = 10) (hle : s.trace.backlog.length ≤ 10) :
    (Sys.step E s c).trace.backlogSize = 10 ∧
    (Sys.step E s c).trace.backlog.length ≤ 10 := by
  obtain ⟨lvl, call⟩ := c
  cases call with
  | logInstr instr =>
    obtain ⟨h1, h2⟩ := Trace.logInstr_backlog_lastN E lvl s.trace s.io instr
      (by omega) (by omega)
    refine ⟨h1.trans hsize, ?_⟩
    show (s.trace.logInstr E lvl s.io instr).1.backlog.length ≤ 10
    rw [h2, length_lastN, hsize]
    omega
  | logPlotterStat p => exact ⟨hsize, hle⟩
  | info msg =>
    simp only [Sys.step, Trace.info]
    split <;> exact ⟨hsize, hle⟩
  | warn msg =>
    simp only [Sys.step, Trace.warn]
    split <;> exact ⟨hsize, hle⟩
  | debug msg =>
    simp only [Sys.step, Trace.debug]
    split <;> exact ⟨hsize, hle⟩
  | printBacklog os caller msg =>
    cases os <;> simp only [Sys.step, Trace.printBacklog] <;> split <;> exact ⟨hsize, hle⟩

/-- A sequence of calls keeps the capacity 10 and a backlog of at most 10
entries. -/
theorem Sys.run_keeps_bound (E : Externals) (cs : List (Nat × TraceCall)) (s : Sys)
    (hsize : s.trace.backlogSize = 10) (hle : s.trace.backlog.length ≤ 10) :
    (Sys.run E s cs).trace.backlogSize = 10 ∧
    (Sys.run E s cs).trace.backlog.length ≤ 10 := by
  induction cs generalizing s with
  | nil => exact ⟨hsize, hle⟩
  | cons c rest ih =>
    obtain ⟨h1, h2⟩ := Sys.step_keeps_bound E s c hsize hle
    exact ih (Sys.step E s c) h1 h2

/-- C3: after any sequence of `logInstr`, `logPlotterStat`, `info`, `warn`,
`debug` and `printBacklog` calls, made at any debug levels from the freshly
constructed trace, the capacity is 10 and the backlog holds at most
`backlogSize` entries. -/
theorem backlog_bounded (E : Externals) (cs : List (Nat × TraceCall)) :
    (Sys.run E Sys.init cs).trace.backlogSize = 10 ∧
    (Sys.run E Sys.init cs).trace.backlog.length
      ≤ (Sys.run E Sys.init cs).trace.backlogSize := by
  obtain ⟨h1, h2⟩ := Sys.run_keeps_bound E cs Sys.init rfl (by simp [Sys.init, Trace.new])
  exact ⟨h1, by rw [h1]; exact h2⟩

/-! ## The backlog dump -/

/-- The loop of `printBacklog` writes the lines of the entries after the
text already in the stream. -/
theorem printBacklog_loop (l : List PclInstr) (os : String) :
    l.foldl (fun o instr => o ++ "\t" ++ instr.render ++ "\n") os
      = os ++ unlines (l.map (fun instr => "\t" ++ instr.render)) := by
  induction l generalizing os with
  | nil => simp [unlines, String.append_empty]
  | cons i rest ih =>
    rw [List.foldl_cons, ih, List.map_cons]
    simp only [unlines, String.append_assoc]

/-- C10: at a debug level of at least `LVL_DEBUG`, `printBacklog` appends to
the stream the header line `=== <caller> trace: <msg>: `, then the line
`(backlog N/A)` when the backlog is empty and otherwise, for each entry in
backlog order, a line made of a tab and the rendering of the entry, then an
empty line. -/
theorem printBacklog_output (E : Externals) (debugLevel : Nat) (t : Trace) (os : String)
    (caller msg : String) (hlvl : debugLevel ≥ E.LVL_DEBUG) :
    (t.printBacklog E debugLevel os caller msg).2
      = os ++ unlines
          (["=== " ++ caller ++ " trace: " ++ msg ++ ": "]
            ++ (if t.backlog = [] then ["(backlog N/A)"]
                else t.backlog.map (fun instr => "\t" ++ instr.render))
            ++ [""]) := by
  have hunl : ∀ a b : List String, unlines (a ++ b) = unlines a ++ unlines b := by
    intro a b
    induction a with
    | nil => simp [unlines, String.empty_append]
    | cons x xs ih =>
      show x ++ "\n" ++ unlines (xs ++ b) = x ++ "\n" ++ unlines xs ++ unlines b
      rw [ih]
      simp only [String.append_assoc]
  unfold Trace.printBacklog
  rw [if_neg (by omega), hunl, hunl]
  have hlast : unlines [""] = "\n" := rfl
  have hhead : ∀ x : String, unlines [x] = x ++ "\n" := fun x => by
    simp only [unlines, String.append_empty]
  rw [hlast, hhead]
  cases hb : t.backlog with
  | nil =>
    simp only [List.isEmpty_nil, if_true, hhead, String.append_assoc]
  | cons i rest =>
    dsimp only
    rw [if_neg (by simp), if_neg (by simp), printBacklog_loop]
    simp only [String.append_assoc]

/-- C10 on a backlog of two records at the debug level. -/
theorem printBacklog_output_witness :
    ((⟨10, [rasterStart, rleData5], ⟨0, 0⟩⟩ : Trace).printBacklog
        ⟨1, 2, 3, fun _ => ""⟩ 3 "" "main" "bad instruction").2
      = "=== main trace: bad instruction: \n\t(00000010) *rA = NULL\n\t(00000020) *bW = 5\n\n" :=
  (printBacklog_output ⟨1, 2, 3, fun _ => ""⟩ 3
    ⟨10, [rasterStart, rleData5], ⟨0, 0⟩⟩ "" "main" "bad instruction"
    (by decide)).trans (by decide)

/-- C11: below `LVL_DEBUG` `printBacklog` leaves the stream as it was; at
every level it returns the trace unchanged (backlog and pen position), and
the text it appends does not depend on what the stream already holds, so a
second call in a row appends the same text as the first. -/
theorem printBacklog_frame (E : Externals) (debugLevel : Nat) (t : Trace)
    (caller msg : String) :
    (debugLevel < E.LVL_DEBUG → ∀ os, (t.printBacklog E debugLevel os caller msg).2 = os) ∧
    (∀ os, (t.printBacklog E debugLevel os caller msg).1 = t) ∧
    ∃ text : String,
      (∀ os, (t.printBacklog E debugLevel os caller msg).2 = os ++ text) ∧
      (∀ os,
        ((t.printBacklog E debugLevel os caller msg).1.printBacklog E debugLevel
            (t.printBacklog E debugLevel os caller msg).2 caller msg).2
          = os ++ text ++ text) := by
  have hsame : ∀ os, (t.printBacklog E debugLevel os caller msg).1 = t := by
    intro os
    unfold Trace.printBacklog
    split <;> rfl
  have htext : ∃ text : String,
      ∀ os, (t.printBacklog E debugLevel os caller msg).2 = os ++ text := by
    by_cases hlvl : debugLevel < E.LVL_DEBUG
    · exact ⟨"", fun os => by simp [Trace.printBacklog, hlvl, String.append_empty]⟩
    · by_cases hb : t.backlog.isEmpty = true
      · exact ⟨"=== " ++ caller ++ " trace: " ++ msg ++ ": " ++ "\n" ++ "(backlog N/A)"
            ++ "\n" ++ "\n", fun os => by
          simp only [Trace.printBacklog, if_neg hlvl, if_pos hb, String.append_assoc]⟩
      · exact ⟨"=== " ++ caller ++ " trace: " ++ msg ++ ": " ++ "\n"
            ++ unlines (t.backlog.map (fun instr => "\t" ++ instr.render)) ++ "\n",
          fun os => by
            unfold Trace.printBacklog
            rw [if_neg hlvl]
            dsimp only
            rw [if_neg hb, printBacklog_loop]
            simp only [String.append_assoc]⟩
  refine ⟨?_, hsame, ?_⟩
  · intro hlvl os
    simp [Trace.printBacklog, hlvl]
  · obtain ⟨text, htext⟩ := htext
    refine ⟨text, htext, ?_⟩
    intro os
    rw [hsame, htext, htext]

/-- C11 at the level 0 below `LVL_DEBUG = 3`: nothing is written. -/
theorem printBacklog_frame_witness :
    ∀ os, ((⟨10, [rasterStart, rleData5], ⟨0, 0⟩⟩ : Trace).printBacklog
      ⟨1, 2, 3, fun _ => ""⟩ 0 os "main" "bad instruction").2 = os :=
  (printBacklog_frame ⟨1, 2, 3, fun _ => ""⟩ 0
    ⟨10, [rasterStart, rleData5], ⟨0, 0⟩⟩ "main" "bad instruction").1 (by decide)

/-! ## The mismatch message of `matches` -/

namespace PclInstr

/-- With `keysep` NUL the object read as a C string is the signature bytes
up to the first NUL among them. -/
theorem asCString_of_keysep (r : PclInstr) (hk : r.keysep = 0) :
    r.asCString = some (textOf ([r.type, r.prefix_, r.suffix].takeWhile (fun b => b != 0))) := by
  unfold asCString leadingBytes textOf
  simp only [hk]
  by_cases h1 : r.type = 0
  · simp [List.takeWhile, h1]
  · have e1 : (r.type != 0) = true := by simp [h1]
    by_cases h2 : r.prefix_ = 0
    · simp [List.takeWhile, e1, h2]
    · have e2 : (r.prefix_ != 0) = true := by simp [h2]
      by_cases h3 : r.suffix = 0
      · simp [List.takeWhile, e1, e2, h3]
      · have e3 : (r.suffix != 0) = true := by simp [h3]
        simp [List.takeWhile, e1, e2, e3]

/-- The result of `matches` is the comparison of the three leading bytes. -/
theorem matches_fst (E : Externals) (debugLevel : Nat) (r : PclInstr)
    (signature : List Nat) (report : Bool) :
    (r.matches E debugLevel signature report).1
      = memEq r.leadingBytes (c_str signature) 3 := by
  unfold «matches»
  dsimp only
  split <;> rfl

/-- C12, as stated, fails: for the record `*rA` at offset `0x10` and the
expected signature `*rC` the message ends with the three signature
characters of the record, not with its rendering `(00000010) *rA = NULL`. -/
theorem matches_message_is_not_rendering :
    (rasterStart.matches ⟨1, 2, 3, fun _ => ""⟩ 1 rasterEndSignature true).2
      = some "expected: *rC found: *rA\n" ∧
    (rasterStart.matches ⟨1, 2, 3, fun _ => ""⟩ 1 rasterEndSignature true).2
      ≠ some ("expected: " ++ textOf rasterEndSignature ++ " found: "
          ++ rasterStart.render ++ "\n") := by
  constructor <;> decide

/-- C12, amended: when the comparison fails with `report` true and the level
at least `LVL_WARN`, a record whose `keysep` is NUL writes the line
`expected: <signature> found: <bytes>`, where the bytes are `type`, `prefix`
and `suffix` as raw characters up to the first NUL among them. -/
theorem matches_message (E : Externals) (debugLevel : Nat) (r : PclInstr)
    (signature : List Nat) (hk : r.keysep = 0)
    (hfail : (r.matches E debugLevel signature true).1 = false)
    (hlvl : debugLevel ≥ E.LVL_WARN) :
    (r.matches E debugLevel signature true).2
      = some ("expected: " ++ textOf signature ++ " found: "
          ++ textOf ([r.type, r.prefix_, r.suffix].takeWhile (fun b => b != 0)) ++ "\n") := by
  rw [matches_fst] at hfail
  unfold «matches»
  dsimp only
  rw [if_pos (by simp [hfail, hlvl]), asCString_of_keysep r hk]
  rfl

/-- C12 (amended) at the record `*rA` and the expected signature `*rC`. -/
theorem matches_message_witness :
    (rasterStart.matches ⟨1, 2, 3, fun _ => ""⟩ 1 rasterEndSignature true).2
      = some ("expected: " ++ textOf rasterEndSignature ++ " found: "
          ++ textOf ([rasterStart.type, rasterStart.prefix_, rasterStart.suffix].takeWhile
              (fun b => b != 0)) ++ "\n") :=
  matches_message ⟨1, 2, 3, fun _ => ""⟩ 1 rasterStart rasterEndSignature rfl
    (by decide) (by decide)

/-- The comparison of `matches` on a signature of at least two bytes is the
equality of `type`, `prefix`, `suffix` with the first three bytes of
`signature.c_str()`. -/
theorem memEq_leadingBytes_c_str (r : PclInstr) (signature : List Nat)
    (hlen : 2 ≤ signature.length) :
    memEq r.leadingBytes (c_str signature) 3 = true ↔
      [r.type, r.prefix_, r.suffix] = (c_str signature).take 3 := by
  have h3 : 3 ≤ signature.length + 1 := by omega
  simp [memEq, leadingBytes, c_str, h3]

/-- C13: for a signature of at least two bytes (where the three-byte
comparison stays inside `signature.c_str()`), `matches` writes something
exactly when the bytes `type`, `prefix`, `suffix` differ from the first
three bytes of `signature.c_str()`, `report` is true and the level is at
least `LVL_WARN`; it returns true exactly when the bytes are equal; and with
`report` false the text written is empty at every level. -/
theorem matches_emits_iff (E : Externals) (debugLevel : Nat) (r : PclInstr)
    (signature : List Nat) (report : Bool) (hlen : 2 ≤ signature.length) :
    ((r.matches E debugLevel signature report).2 ≠ some "" ↔
      ([r.type, r.prefix_, r.suffix] ≠ (c_str signature).take 3 ∧ report = true ∧
        debugLevel ≥ E.LVL_WARN)) ∧
    ((r.matches E debugLevel signature report).1 = true ↔
      [r.type, r.prefix_, r.suffix] = (c_str signature).take 3) ∧
    (∀ lvl, (r.matches E lvl signature false).2 = some "") := by
  have hne : ∀ a b : String, "expected: " ++ a ++ " found: " ++ b ++ "\n" ≠ "" := by
    intro a b h
    have hl := congrArg String.length h
    have h1 : ("expected: " : String).length = 10 := by decide
    have h0 : ("" : String).length = 0 := by decide
    simp only [String.length_append, h1, h0] at hl
    omega
  have hcmp := memEq_leadingBytes_c_str r signature hlen
  have hdiff : [r.type, r.prefix_, r.suffix] ≠ (c_str signature).take 3 ↔
      memEq r.leadingBytes (c_str signature) 3 = false := by
    rw [← Bool.not_eq_true, hcmp]
  refine ⟨?_, ?_, ?_⟩
  · rw [hdiff]
    unfold «matches»
    dsimp only
    by_cases hc : (!memEq r.leadingBytes (c_str signature) 3 && report
        && decide (debugLevel ≥ E.LVL_WARN)) = true
    · rw [if_pos hc]
      have hc' := hc
      simp only [Bool.and_eq_true, Bool.not_eq_true', decide_eq_true_eq] at hc'
      refine ⟨fun _ => ⟨hc'.1.1, hc'.1.2, hc'.2⟩, fun _ => ?_⟩
      cases r.asCString with
      | none => simp
      | some found =>
        simp only [Option.map_some', ne_eq, Option.some.injEq]
        exact hne _ _
    · rw [if_neg hc]
      refine ⟨fun h => absurd rfl h, fun h => ?_⟩
      exfalso
      apply hc
      simp [h.1, h.2.1, h.2.2]
  · rw [matches_fst, hcmp]
  · intro lvl
    unfold «matches»
    dsimp only
    rw [if_neg (by simp)]

/-- C13 at the record `*rA`, the expected signature `*rC`, `report` true and
the level of `LVL_WARN`: a message is written. -/
theorem matches_emits_iff_witness :
    (rasterStart.matches ⟨1, 2, 3, fun _ => ""⟩ 1 rasterEndSignature true).2 ≠ some "" :=
  (matches_emits_iff ⟨1, 2, 3, fun _ => ""⟩ 1 rasterStart rasterEndSignature true
    (by decide)).1.mpr ⟨by decide, rfl, by decide⟩

end PclInstr

/-! ## The level-gated messages -/

namespace Trace

/-- C14: `info`, `warn` and `debug` write one line when the level is at
least `LVL_INFO`, `LVL_WARN`, `LVL_DEBUG` respectively and nothing below it:
the message on `cout` for `info`, the message after `WARNING: ` on `cerr`
for `warn`, the message after `DEBUG: ` on `cerr` for `debug`; the trace
(backlog, pen position, capacity) is returned unchanged. -/
theorem info_warn_debug (E : Externals) (debugLevel : Nat) (t : Trace) (io : Streams)
    (msg : String) :
    ((t.info E debugLevel io msg).1 = t ∧ (t.warn E debugLevel io msg).1 = t ∧
      (t.debug E debugLevel io msg).1 = t) ∧
    ((debugLevel ≥ E.LVL_INFO →
        (t.info E debugLevel io msg).2 = ⟨io.cout ++ unlines [msg], io.cerr⟩) ∧
      (debugLevel < E.LVL_INFO → (t.info E debugLevel io msg).2 = io)) ∧
    ((debugLevel ≥ E.LVL_WARN →
        (t.warn E debugLevel io msg).2 = ⟨io.cout, io.cerr ++ unlines ["WARNING: " ++ msg]⟩) ∧
      (debugLevel < E.LVL_WARN → (t.warn E debugLevel io msg).2 = io)) ∧
    ((debugLevel ≥ E.LVL_DEBUG →
        (t.debug E debugLevel io msg).2 = ⟨io.cout, io.cerr ++ unlines ["DEBUG: " ++ msg]⟩) ∧
      (debugLevel < E.LVL_DEBUG → (t.debug E debugLevel io msg).2 = io)) := by
  have hline : ∀ x : String, unlines [x] = x ++ "\n" := fun x => by
    simp only [unlines, String.append_empty]
  refine ⟨⟨?_, ?_, ?_⟩, ⟨?_, ?_⟩, ⟨?_, ?_⟩, ⟨?_, ?_⟩⟩
  · unfold info; split <;> rfl
  · unfold warn; split <;> rfl
  · unfold debug; split <;> rfl
  · intro h
    simp only [info, if_pos h, hline, String.append_assoc]
  · intro h
    simp only [info, if_neg (Nat.not_le.mpr h)]
  · intro h
    simp only [warn, if_pos h, hline, String.append_assoc]
  · intro h
    simp only [warn, if_neg (Nat.not_le.mpr h)]
  · intro h
    simp only [debug, if_pos h, hline, String.append_assoc]
  · intro h
    simp only [debug, if_neg (Nat.not_le.mpr h)]

/-- C14 for `warn` at the level of `LVL_WARN`. -/
theorem info_warn_debug_witness :
    ((⟨10, [rasterStart], ⟨3, 4⟩⟩ : Trace).warn ⟨1, 2, 3, fun _ => ""⟩ 1 ⟨"a", "b"⟩
        "short read").2
      = ⟨"a", "b" ++ unlines ["WARNING: " ++ "short read"]⟩ :=
  (info_warn_debug ⟨1, 2, 3, fun _ => ""⟩ 1 ⟨10, [rasterStart], ⟨3, 4⟩⟩ ⟨"a", "b"⟩
    "short read").2.2.1.1 (by decide)

/-- C17: `logPlotterStat` stores the point it is given, whatever its
coordinates, and keeps the backlog and the capacity; `logInstr` keeps the
stored point. -/
theorem logPlotterStat_frame (E : Externals) (debugLevel : Nat) (t : Trace) (io : Streams)
    (penPos : Point) (instr : PclInstr) :
    (t.logPlotterStat penPos).penPos = penPos ∧
    (t.logPlotterStat penPos).backlog = t.backlog ∧
    (t.logPlotterStat penPos).backlogSize = t.backlogSize ∧
    (t.logInstr E debugLevel io instr).1.penPos = t.penPos :=
  ⟨rfl, rfl, rfl, rfl⟩

end Trace

/-! ## Construction and the value slot -/

namespace PclInstr

/-- C15: the constructor sets the three signature bytes to 127, `keysep`,
`value`, `pos` and `limit` to 0, `data` to the null pointer, both flags to
false and `file_off` to its argument, and `hasNext()` is false on the new
record. -/
theorem new_fields (o : Int) :
    (PclInstr.new o).type = 127 ∧ (PclInstr.new o).prefix_ = 127 ∧
    (PclInstr.new o).suffix = 127 ∧ (PclInstr.new o).keysep = 0 ∧
    (PclInstr.new o).value = 0 ∧ (PclInstr.new o).pos = 0 ∧
    (PclInstr.new o).limit = 0 ∧ (PclInstr.new o).data = none ∧
    (PclInstr.new o).hasValue = false ∧ (PclInstr.new o).hasData = false ∧
    (PclInstr.new o).file_off = o ∧ (PclInstr.new o).hasNext = false :=
  ⟨rfl, rfl, rfl, rfl, rfl, rfl, rfl, rfl, rfl, rfl, rfl, rfl⟩

/-- The text the stream writes for an `int32_t` is the signed decimal text. -/
theorem fmtD_int_eq_signedDecimal (v : Int) : fmtD_int v = signedDecimal v := by
  unfold fmtD_int signedDecimal
  cases v with
  | ofNat n =>
    have hneg : ¬ ((Int.ofNat n : Int) < 0) := by
      simp
    rw [if_neg hneg, String.empty_append]
    rfl
  | negSucc n =>
    have hneg : (Int.negSucc n : Int) < 0 := Int.negSucc_lt_zero n
    rw [if_pos hneg]
    rfl

/-- C18: the value slot, the text after ` = `, is the signed decimal text of
`value` when `hasValue` is true and `NULL` when it is false; `hasData` has
no part in the rendering; a negative value is written with its minus sign. -/
theorem render_value_slot (r : PclInstr) :
    (r.hasValue = true →
      r.render = "(" ++ fmt08X r.file_off ++ ") " ++ pretty r.type ++ pretty r.prefix_
        ++ pretty r.suffix ++ " = " ++ signedDecimal r.value) ∧
    (r.hasValue = false →
      r.render = "(" ++ fmt08X r.file_off ++ ") " ++ pretty r.type ++ pretty r.prefix_
        ++ pretty r.suffix ++ " = " ++ "NULL") ∧
    (∀ b : Bool, ({ r with hasData := b } : PclInstr).render = r.render) ∧
    ({ rleData5 with value := -5 } : PclInstr).render = "(00000020) *bW = -5" ∧
    ({ rasterStart with hasData := true } : PclInstr).render = "(00000010) *rA = NULL" := by
  refine ⟨?_, ?_, fun _ => rfl, by decide, by decide⟩
  · intro h
    unfold render
    rw [if_pos h, fmtD_int_eq_signedDecimal]
  · intro h
    unfold render
    rw [if_neg (by simp [h])]

/-- C18 at the record `*bW` with value 5. -/
theorem render_value_slot_witness :
    rleData5.render = "(" ++ fmt08X rleData5.file_off ++ ") " ++ pretty rleData5.type
      ++ pretty rleData5.prefix_ ++ pretty rleData5.suffix ++ " = "
      ++ signedDecimal rleData5.value :=
  (render_value_slot rleData5).1 rfl

end PclInstr

/-! ## The pen position in the debug line of `logInstr` -/

/-- A call other than `logPlotterStat` keeps the stored point, and
`logPlotterStat` stores its argument. -/
theorem Sys.step_penPos (E : Externals) (s : Sys) (c : Nat × TraceCall) :
    (Sys.step E s c).trace.penPos = (plotterStats [c]).getLast?.getD s.trace.penPos := by
  obtain ⟨lvl, call⟩ := c
  cases call with
  | logInstr instr => rfl
  | logPlotterStat p => rfl
  | info msg =>
    simp only [Sys.step, Trace.info, plotterStats]
    split <;> rfl
  | warn msg =>
    simp only [Sys.step, Trace.warn, plotterStats]
    split <;> rfl
  | debug msg =>
    simp only [Sys.step, Trace.debug, plotterStats]
    split <;> rfl
  | printBacklog os caller msg =>
    cases os <;> simp only [Sys.step, Trace.printBacklog, plotterStats] <;> split <;> rfl

/-- After a sequence of calls the stored point is the last one handed to
`logPlotterStat`, and the point of the start when there is none. -/
theorem Sys.run_penPos (E : Externals) (cs : List (Nat × TraceCall)) (s : Sys) :
    (Sys.run E s cs).trace.penPos = (plotterStats cs).getLast?.getD s.trace.penPos := by
  induction cs generalizing s with
  | nil => rfl
  | cons c rest ih =>
    have hrun : Sys.run E s (c :: rest) = Sys.run E (Sys.step E s c) rest := rfl
    have hsplit : plotterStats (c :: rest) = plotterStats [c] ++ plotterStats rest := by
      unfold plotterStats
      rw [← List.filterMap_append]
      rfl
    rw [hrun, ih, Sys.step_penPos, hsplit, List.getLast?_append]
    cases (plotterStats rest).getLast? with
    | none => simp
    | some q => simp

/-- C16: in the state reached by any sequence of calls from the constructed
trace, `logInstr` at a level of at least `LVL_DEBUG` appends to `cerr` one
line made of the text of the last point handed to `logPlotterStat` (of the
point (0,0) when there is none), a tab and the rendering of the record, and
leaves `cout`; below `LVL_DEBUG` it writes nothing. -/
theorem logInstr_debug_line (E : Externals) (cs : List (Nat × TraceCall))
    (debugLevel : Nat) (instr : PclInstr) :
    (debugLevel ≥ E.LVL_DEBUG →
      ((Sys.run E Sys.init cs).trace.logInstr E debugLevel
          (Sys.run E Sys.init cs).io instr).2
        = ⟨(Sys.run E Sys.init cs).io.cout,
            (Sys.run E Sys.init cs).io.cerr ++ unlines
              [E.pointText ((plotterStats cs).getLast?.getD ⟨0, 0⟩) ++ "\t"
                ++ instr.render]⟩) ∧
    (debugLevel < E.LVL_DEBUG →
      ((Sys.run E Sys.init cs).trace.logInstr E debugLevel
          (Sys.run E Sys.init cs).io instr).2 = (Sys.run E Sys.init cs).io) := by
  have hpen : (Sys.run E Sys.init cs).trace.penPos
      = (plotterStats cs).getLast?.getD ⟨0, 0⟩ := Sys.run_penPos E cs Sys.init
  constructor
  · intro h
    simp only [Trace.logInstr, if_pos h, hpen, unlines, String.append_empty,
      String.append_assoc]
  · intro h
    simp only [Trace.logInstr, if_neg (Nat.not_le.mpr h)]

/-- C16 after the pen was reported at (1,1) and then at (3,4), with the text
of a point written as its two coordinates around a comma. -/
theorem logInstr_debug_line_witness :
    ((Sys.run ⟨1, 2, 3, fun q => toString q.x ++ "," ++ toString q.y⟩ Sys.init
          [(3, .logPlotterStat ⟨1, 1⟩), (3, .logPlotterStat ⟨3, 4⟩)]).trace.logInstr
        ⟨1, 2, 3, fun q => toString q.x ++ "," ++ toString q.y⟩ 3
        (Sys.run ⟨1, 2, 3, fun q => toString q.x ++ "," ++ toString q.y⟩ Sys.init
          [(3, .logPlotterStat ⟨1, 1⟩), (3, .logPlotterStat ⟨3, 4⟩)]).io rasterStart).2
      = ⟨"", "3,4\t(00000010) *rA = NULL\n"⟩ :=
  ((logInstr_debug_line ⟨1, 2, 3, fun q => toString q.x ++ "," ++ toString q.y⟩
    [(3, .logPlotterStat ⟨1, 1⟩), (3, .logPlotterStat ⟨3, 4⟩)] 3 rasterStart).1
    (by decide)).trans (by decide)

/-! ## The check-before-read loop -/

namespace PclInstr

/-- From a cursor `k` bytes before the end of a payload of `limit` bytes the
loop reads the `k` remaining bytes in order and stops at the limit. -/
theorem readWhileHasNext_from (buf : List Nat) (hn : buf.length < 65536) (k : Nat) :
    ∀ (r : PclInstr) (fuel : Nat), r.data = some buf → r.limit = buf.length →
      r.pos + k = buf.length → k < fuel →
      readWhileHasNext fuel r
        = some ((List.range' r.pos k).zip (buf.drop r.pos), { r with pos := buf.length }) := by
  induction k with
  | zero =>
    intro r fuel hdata hlimit hpos hfuel
    obtain ⟨f, rfl⟩ : ∃ f, fuel = f + 1 := ⟨fuel - 1, by omega⟩
    have hno : r.hasNext = false := by simp [hasNext, hlimit]; omega
    have hr : ({ r with pos := buf.length } : PclInstr) = r := by
      have : r.pos = buf.length := by omega
      rw [← this]
    simp [readWhileHasNext, hno, hr]
  | succ k ih =>
    intro r fuel hdata hlimit hpos hfuel
    obtain ⟨f, rfl⟩ : ∃ f, fuel = f + 1 := ⟨fuel - 1, by omega⟩
    have hin : r.pos < buf.length := by omega
    have hyes : r.hasNext = true := by simp [hasNext, hlimit]; omega
    have hnext := next_of_lt r buf hdata hin (by omega)
    have hrec := ih { r with pos := r.pos + 1 } f hdata hlimit
      (by show r.pos + 1 + k = buf.length; omega) (by omega)
    have hdrop : buf.drop r.pos = buf[r.pos] :: buf.drop (r.pos + 1) :=
      List.drop_eq_getElem_cons hin
    unfold readWhileHasNext
    rw [if_pos hyes, hnext]
    dsimp only
    rw [hrec, hdrop, List.range'_succ]
    rfl

/-- C19: on a record with `pos = 0` and a payload of `limit = n ≤ 65535`
bytes the loop `while hasNext() do next()` ends (any fuel above `n` is
enough) after `n` reads, made at the cursors `0 .. n-1` and returning the
payload bytes in order; every read is below `limit`; afterwards
`pos = limit` and `hasNext()` is false. -/
theorem readWhileHasNext_reads_payload (r : PclInstr) (buf : List Nat) (fuel : Nat)
    (hdata : r.data = some buf) (hpos : r.pos = 0) (hlimit : r.limit = buf.length)
    (hn : buf.length ≤ 65535) (hfuel : buf.length < fuel) :
    ∃ reads r', readWhileHasNext fuel r = some (reads, r') ∧
      reads = (List.range buf.length).zip buf ∧
      reads.length = buf.length ∧
      reads.map Prod.snd = buf ∧
      (∀ x ∈ reads, x.1 < r.limit) ∧
      r' = { r with pos := r.limit } ∧ r'.pos = r'.limit ∧ r'.hasNext = false := by
  have h := readWhileHasNext_from buf (by omega) buf.length r fuel hdata hlimit
    (by omega) hfuel
  rw [hpos, List.drop_zero, ← List.range_eq_range'] at h
  refine ⟨_, _, h, rfl, ?_, ?_, ?_, ?_, ?_, ?_⟩
  · simp
  · rw [List.map_snd_zip]
    simp
  · intro x hx
    have hx1 : x.1 ∈ List.range buf.length := (List.of_mem_zip hx).1
    rw [hlimit]
    exact List.mem_range.mp hx1
  · rw [hlimit]
  · exact hlimit.symm
  · simp [hasNext, hlimit]

/-- C19 at a payload of three bytes. -/
theorem readWhileHasNext_reads_payload_witness :
    ∃ reads r',
      readWhileHasNext 4 { PclInstr.new 0 with data := some [10, 20, 30], limit := 3 }
        = some (reads, r') ∧
      reads = (List.range 3).zip [10, 20, 30] ∧
      reads.length = 3 ∧
      reads.map Prod.snd = [10, 20, 30] ∧
      (∀ x ∈ reads, x.1 < 3) ∧
      r' = { PclInstr.new 0 with data := some [10, 20, 30], limit := 3, pos := 3 } ∧
      r'.pos = r'.limit ∧ r'.hasNext = false :=
  readWhileHasNext_reads_payload
    { PclInstr.new 0 with data := some [10, 20, 30], limit := 3 } [10, 20, 30] 4
    rfl rfl rfl (by decide) (by decide)

end PclInstr

/-! ## The dump after a sequence of logged records -/

theorem unlines_append (a b : List String) : unlines (a ++ b) = unlines a ++ unlines b := by
  induction a with
  | nil => simp [unlines, String.empty_append]
  | cons x xs ih =>
    show x ++ "\n" ++ unlines (xs ++ b) = x ++ "\n" ++ unlines xs ++ unlines b
    rw [ih]
    simp only [String.append_assoc]

/-- At a level of at least `LVL_DEBUG` the dump of a backlog that is not
empty is the header line, one line per entry and an empty line. -/
theorem printBacklog_entries (E : Externals) (debugLevel : Nat) (t : Trace) (os : String)
    (caller msg : String) (hlvl : debugLevel ≥ E.LVL_DEBUG) (hb : t.backlog ≠ []) :
    (t.printBacklog E debugLevel os caller msg).2
      = os ++ unlines
          (["=== " ++ caller ++ " trace: " ++ msg ++ ": "]
            ++ t.backlog.map (fun instr => "\t" ++ instr.render) ++ [""]) := by
  have hlast : unlines [""] = "\n" := rfl
  have hhead : ∀ x : String, unlines [x] = x ++ "\n" := fun x => by
    simp only [unlines, String.append_empty]
  unfold Trace.printBacklog
  rw [if_neg (by omega), unlines_append, unlines_append, hlast, hhead]
  dsimp only
  rw [if_neg (by simpa using hb), printBacklog_loop]
  simp only [String.append_assoc]

/-- C20: with a capacity `c ≥ 1`, after `n` records are logged from an empty
backlog the backlog is the last `min n c` of them in the order of the
calls; a dump at a level of at least `LVL_DEBUG` then writes the header
line, the placeholder line when `n = 0` and otherwise `min n c` lines, one
per kept record oldest first (a tab and its rendering), and an empty line. -/
theorem logInstrs_then_printBacklog (E : Externals) (c : Nat) (hc : 1 ≤ c)
    (penPos : Point) (io : Streams) (cs : List (Nat × PclInstr))
    (debugLevel : Nat) (os caller msg : String) (hlvl : debugLevel ≥ E.LVL_DEBUG) :
    ((⟨c, [], penPos⟩ : Trace).logInstrs E io cs).1.backlog
      = lastN (min cs.length c) (cs.map Prod.snd) ∧
    ((⟨c, [], penPos⟩ : Trace).logInstrs E io cs).1.backlog.length = min cs.length c ∧
    (((⟨c, [], penPos⟩ : Trace).logInstrs E io cs).1.printBacklog E debugLevel os
        caller msg).2
      = os ++ unlines
          (["=== " ++ caller ++ " trace: " ++ msg ++ ": "]
            ++ (if cs.length = 0 then ["(backlog N/A)"]
                else (lastN (min cs.length c) (cs.map Prod.snd)).map
                  (fun instr => "\t" ++ instr.render))
            ++ [""]) ∧
    ((lastN (min cs.length c) (cs.map Prod.snd)).map
      (fun instr => "\t" ++ instr.render)).length = min cs.length c := by
  have hmin : lastN (min cs.length c) (cs.map Prod.snd) = lastN c (cs.map Prod.snd) := by
    unfold lastN
    congr 1
    simp only [List.length_map]
    omega
  have hback : ((⟨c, [], penPos⟩ : Trace).logInstrs E io cs).1.backlog
      = lastN c (cs.map Prod.snd) := by
    have h := (Trace.logInstrs_backlog_lastN E cs ⟨c, [], penPos⟩ io hc (by simp)).2
    simpa using h
  have hlen : (lastN c (cs.map Prod.snd)).length = min cs.length c := by
    rw [length_lastN, List.length_map]
  refine ⟨by rw [hback, hmin], by rw [hback, hlen], ?_, by rw [List.length_map, hmin, hlen]⟩
  by_cases hn : cs.length = 0
  · have hnil : cs = [] := List.length_eq_zero.mp hn
    subst hnil
    simp only [Trace.logInstrs, List.foldl_nil, Trace.printBacklog, if_neg (Nat.not_lt.mpr hlvl),
      List.isEmpty_nil, if_true, List.length_nil, unlines, String.append_assoc,
      String.append_empty, String.empty_append, List.cons_append, List.nil_append]
  · have hne : ((⟨c, [], penPos⟩ : Trace).logInstrs E io cs).1.backlog ≠ [] := by
      intro h
      have := congrArg List.length h
      rw [hback, hlen] at this
      simp only [List.length_nil] at this
      omega
    rw [printBacklog_entries E debugLevel _ os caller msg hlvl hne, if_neg hn, hback, hmin]

/-- C20 at capacity 2 with three logged records: the dump shows the last
two. -/
theorem logInstrs_then_printBacklog_witness :
    (((⟨2, [], ⟨0, 0⟩⟩ : Trace).logInstrs ⟨1, 2, 3, fun _ => ""⟩ ⟨"", ""⟩
        [(0, PclInstr.new 1), (0, rasterStart), (0, rleData5)]).1.printBacklog
        ⟨1, 2, 3, fun _ => ""⟩ 3 "" "main" "bad instruction").2
      = "=== main trace: bad instruction: \n\t(00000010) *rA = NULL\n\t(00000020) *bW = 5\n\n" :=
  ((logInstrs_then_printBacklog ⟨1, 2, 3, fun _ => ""⟩ 2 (by decide) ⟨0, 0⟩ ⟨"", ""⟩
    [(0, PclInstr.new 1), (0, rasterStart), (0, rleData5)] 3 "" "main" "bad instruction"
    (by decide)).2.2.1).trans (by decide)

end Pcl
